import Mathlib

/-!
Verification of the AI-vs-AI Debate Calculator core.

This file gives a shallow embedding of the debate protocol implemented in
`src/debate_calc/app/orchestrator.py` and of the timing arithmetic of
`src/debate_calc/app/pace_controller.py`, and proves the frozen claims
about them.

Modelling conventions:
- Python strings are Lean `String`s; the regular-expression searches
  `AGREE_TAG.search` / `FINAL_TAG.search` (case-insensitive, leftmost
  match, `FINAL` non-greedy with DOTALL) are embedded as explicit
  left-to-right scans over the lowercased character list.
- A model call (`_call_terrence` / `_call_neil`, each already wrapped by
  the retry decorator) is modelled by its outcome: `Except String String`,
  where `.error msg` stands for an exception whose `str` is `msg`
  propagating out of the retry wrapper.  The sequence of outcomes of the
  successive calls a debate makes is an oracle `Nat → Except String String`
  consumed in call order.
- Wall-clock timestamps and sleeps are not modelled; the pace-controller
  arithmetic is modelled over `ℚ` with the random uniform draw passed in
  as an explicit parameter, and with the idealisation that a sleep of
  `d` seconds makes the re-measured total time exactly `latency + d`.
- `debate` below models the round loop shared verbatim by
  `DebateOrchestrator.debate` and `DebateOrchestrator.debate_sync`
  (the two differ only in sync-vs-async plumbing, not in control flow).
-/

namespace DebateCalc

/-- Lowercased character list of a string.  Models the effect of
`re.IGNORECASE` matching of the ASCII tag patterns: the text is compared
pattern-wise after per-character lowercasing. -/
def lowerChars (s : String) : List Char := s.data.map Char.toLower

/-- The characters of `<AGREE>true</AGREE>`, lowercased: what the
alternation branch `true` of `AGREE_TAG` has to match. -/
def agreeTruePat : List Char := "<agree>true</agree>".data

/-- The characters of `<AGREE>false</AGREE>`, lowercased: the `false`
branch of `AGREE_TAG`. -/
def agreeFalsePat : List Char := "<agree>false</agree>".data

/-- The opening tag of `FINAL_TAG`, lowercased. -/
def finalOpenPat : List Char := "<final>".data

/-- The closing tag of `FINAL_TAG`, lowercased. -/
def finalClosePat : List Char := "</final>".data

/-- Python `str.strip()` on a character list: drop whitespace from both
ends. -/
def trimChars (l : List Char) : List Char :=
  ((l.dropWhile Char.isWhitespace).reverse.dropWhile Char.isWhitespace).reverse

/-- Index of the first occurrence of `pat` as a contiguous block of
`text` (first position whose suffix has `pat` as a prefix), as a regex
engine leftmost-match rule finds it. -/
def findSub (pat : List Char) : List Char → Option Nat
  | [] => if pat <+: ([] : List Char) then some 0 else none
  | c :: rest =>
      if pat <+: (c :: rest) then some 0
      else (findSub pat rest).map (fun n => n + 1)

/-- Left-to-right scan of `AGREE_TAG.search`: at each position try the
alternation `true` then `false`; report which branch matched first.
Models the leftmost-match semantics of
`re.compile(r"<AGREE>(true|false)</AGREE>", re.IGNORECASE).search`. -/
def agreeSearch : List Char → Option Bool
  | [] => none
  | c :: rest =>
      if agreeTruePat <+: (c :: rest) then some true
      else if agreeFalsePat <+: (c :: rest) then some false
      else agreeSearch rest

/-- `DebateOrchestrator._extract_agreement`: search the response for the
first agreement tag; the result is `match.group(1).lower() == "true"`,
i.e. whether the branch that matched was the `true` one. -/
def extract_agreement (response : String) : Option Bool :=
  agreeSearch (lowerChars response)

/-- `DebateOrchestrator._extract_final_answer`: leftmost match of
`<FINAL>(.*?)</FINAL>` (case-insensitive, DOTALL), returning the
stripped group.  The leftmost match starts at the first position of
`<final>`; the non-greedy group ends at the first `</final>` at least 7
characters (the length of the open tag) further on.  A match exists at the
first open position iff it exists anywhere, since any closing tag that
serves a later open position also serves an earlier one. -/
def extract_final_answer (response : String) : Option String :=
  let t := lowerChars response
  match findSub finalOpenPat t with
  | none => none
  | some i =>
      match findSub finalClosePat (t.drop (i + 7)) with
      | none => none
      | some j => some (String.mk (trimChars ((response.data.drop (i + 7)).take j)))

/-- Python truthiness of an optional string (`if final_answer:`): false
for `None` and for the empty string. -/
def truthy : Option String → Bool
  | none => false
  | some s => !(s == "")

/-- `len(text.split())`: number of maximal whitespace-free runs.  The
boolean argument records whether the previous character belonged to a
word. -/
def countWordsAux : List Char → Bool → Nat
  | [], _ => 0
  | c :: rest, inWord =>
      if c.isWhitespace then countWordsAux rest false
      else (if inWord then 0 else 1) + countWordsAux rest true

/-- Rough token estimate used by the orchestrator:
`len(response.split())`. -/
def wordCount (s : String) : Nat := countWordsAux s.data false

/-- `DebateStatus` from the orchestrator. -/
inductive DebateStatus
  | not_started
  | in_progress
  | completed
  | error
  | timeout
deriving DecidableEq, Repr

/-- `DebateTurn`, restricted to the fields the protocol logic touches
(the wall-clock `timestamp` and `timing` fields are not modelled). -/
structure DebateTurn where
  speaker : String
  content : String
  agreement_flag : Option Bool := none
  tokens_used : Option Nat := none
deriving DecidableEq, Repr

/-- `DebateResult`, restricted likewise (no `total_time`, `pace_mode`,
`timing_summary`). -/
structure DebateResult where
  status : DebateStatus
  expression : String
  final_answer : Option String := none
  rounds : Nat := 0
  turns : List DebateTurn := []
  error_message : Option String := none
deriving DecidableEq, Repr

/-- A recorded Terrence (Solver) turn: `agreement_flag` stays `None`,
`tokens_used = len(content.split())`. -/
def mkSolverTurn (content : String) : DebateTurn :=
  { speaker := "Terrence", content := content,
    agreement_flag := none, tokens_used := some (wordCount content) }

/-- A recorded Neil (Critic) turn: `agreement_flag` carries the
extracted agreement. -/
def mkCriticTurn (content : String) : DebateTurn :=
  { speaker := "Neil", content := content,
    agreement_flag := extract_agreement content,
    tokens_used := some (wordCount content) }

/-- The timeout message set after the round loop exits unresolved. -/
def timeoutMessage (maxRounds : Nat) : String :=
  s!"Debate did not reach agreement within {maxRounds} rounds"

/-- The error message set when the finalization turn has no usable
final answer. -/
def finalizeFailMessage : String :=
  "Terrence failed to provide final answer after agreement"

/-- The round loop of `DebateOrchestrator.debate` (and, identically, of
`debate_sync`).  `remaining` is the number of loop iterations left
(`maxRounds - roundNum`), `roundNum` the 0-based index of the current
round, `idx` the index of the next oracle call.  The `remaining = 0`
case is the post-loop check turning a still-`IN_PROGRESS` result into
`TIMEOUT`; all in-loop terminal exits (break / raised exception) set a
non-`IN_PROGRESS` status, so returning them directly agrees with the
Python control flow where that check is a no-op after a break and is
skipped by an exception.  The Python method mutates `result` field by
field (`result.rounds = round_num + 1`, then appending turns, then
setting the terminal status); each branch below is the collapsed net
effect of those sequential mutations on the same object. -/
def debateRounds (calls : Nat → Except String String) (maxRounds : Nat) :
    Nat → Nat → Nat → DebateResult → DebateResult
  | 0, _roundNum, _idx, result =>
      if result.status = DebateStatus.in_progress then
        { result with status := DebateStatus.timeout,
                      error_message := some (timeoutMessage maxRounds) }
      else result
  | remaining + 1, roundNum, idx, result =>
      match calls idx with
      | .error msg =>
          { result with rounds := roundNum + 1,
                        status := DebateStatus.error, error_message := some msg }
      | .ok tr =>
          if truthy (extract_final_answer tr) then
            { result with rounds := roundNum + 1,
                          turns := result.turns ++ [mkSolverTurn tr],
                          final_answer := extract_final_answer tr,
                          status := DebateStatus.completed }
          else
            match calls (idx + 1) with
            | .error msg =>
                { result with rounds := roundNum + 1,
                              turns := result.turns ++ [mkSolverTurn tr],
                              status := DebateStatus.error,
                              error_message := some msg }
            | .ok nr =>
                if extract_agreement nr = some true then
                  match calls (idx + 2) with
                  | .error msg =>
                      { result with rounds := roundNum + 1,
                                    turns := result.turns ++
                                      [mkSolverTurn tr, mkCriticTurn nr],
                                    status := DebateStatus.error,
                                    error_message := some msg }
                  | .ok fr =>
                      if truthy (extract_final_answer fr) then
                        { result with rounds := roundNum + 1,
                                      turns := result.turns ++
                                        [mkSolverTurn tr, mkCriticTurn nr, mkSolverTurn fr],
                                      final_answer := extract_final_answer fr,
                                      status := DebateStatus.completed }
                      else
                        { result with rounds := roundNum + 1,
                                      turns := result.turns ++
                                        [mkSolverTurn tr, mkCriticTurn nr, mkSolverTurn fr],
                                      status := DebateStatus.error,
                                      error_message := some finalizeFailMessage }
                else
                  debateRounds calls maxRounds remaining (roundNum + 1) (idx + 2)
                    { result with rounds := roundNum + 1,
                                  turns := result.turns ++
                                    [mkSolverTurn tr, mkCriticTurn nr] }

/-- `DebateOrchestrator.debate` (equally `debate_sync`): run the round
loop from the freshly created `IN_PROGRESS` result. -/
def debate (calls : Nat → Except String String) (expression : String)
    (maxRounds : Nat) : DebateResult :=
  debateRounds calls maxRounds maxRounds 0 0
    { status := DebateStatus.in_progress, expression := expression }

/-- `TurnTiming` of the pace controller, over `ℚ`. -/
structure TurnTiming where
  start_time : ℚ
  model_latency : ℚ
  padding_time : ℚ
  total_time : ℚ
  jitter_applied : ℚ
deriving DecidableEq, Repr

/-- `PaceController._apply_jitter` with the drawn jitter value passed
explicitly: `random.uniform(-r, r)` with `r = base_time *
jitter_percentage` yields some `jitterDraw` with `|jitterDraw| ≤ r`;
the function returns `max(0.1, base_time + jitterDraw)`. -/
def apply_jitter (base_time jitterDraw : ℚ) : ℚ :=
  max (1 / 10) (base_time + jitterDraw)

/-- The timing record produced by `PaceController.execute_turn` (and
identically by `SyncPaceController.execute_turn`) for a successful model
call of latency `model_latency`, starting at `start_time`, with the
jitter draw `jitterDraw`.  In the source, `elapsed_time` and
`model_latency` are the same difference `model_end_time - start_time`;
the sleep of `padding_needed` seconds is idealised as exact, so the
re-measured `total_time` is `model_latency + padding_needed`. -/
def execute_turn_timing (min_turn_seconds jitterDraw model_latency start_time : ℚ) :
    TurnTiming :=
  let min_turn_time := apply_jitter min_turn_seconds jitterDraw
  let padding_needed := max 0 (min_turn_time - model_latency)
  { start_time := start_time
    model_latency := model_latency
    padding_time := padding_needed
    total_time := model_latency + padding_needed
    jitter_applied := min_turn_time - min_turn_seconds }

/-- Spec-side description of the agreement tag: the agreement tag that
starts at position `i` of the (lowercased) text, if any, together with
the token it wraps (`true` or `false`).  Used to state what the
leftmost-match search returns. -/
def agreeTagAt (t : List Char) (i : Nat) : Option Bool :=
  if agreeTruePat <+: t.drop i then some true
  else if agreeFalsePat <+: t.drop i then some false
  else none

/-- Spec-side description of a complete finalization-tag match in the
(lowercased) text: an opening tag at position `i` and a closing tag
`j` characters after the end of the opening tag (the group content is
the `j` characters in between, possibly spanning newlines). -/
def finalMatchAt (t : List Char) (i j : Nat) : Prop :=
  finalOpenPat <+: t.drop i ∧ finalClosePat <+: t.drop (i + 7 + j)

instance (t : List Char) (i j : Nat) : Decidable (finalMatchAt t i j) :=
  inferInstanceAs (Decidable (_ ∧ _))

/-- The call at this oracle position succeeds and its response carries
no (truthy) final answer: a Solver turn that keeps the debate going. -/
def solverOkNoFinal (e : Except String String) : Prop :=
  match e with
  | .ok s => truthy (extract_final_answer s) = false
  | .error _ => False

instance (e : Except String String) : Decidable (solverOkNoFinal e) :=
  match e with
  | .ok s => inferInstanceAs (Decidable (truthy (extract_final_answer s) = false))
  | .error _ => inferInstanceAs (Decidable False)

/-- The call at this oracle position succeeds and its response does not
carry agreement `true`: a Critic turn that keeps the debate going. -/
def criticOkNoAgree (e : Except String String) : Prop :=
  match e with
  | .ok c => extract_agreement c ≠ some true
  | .error _ => False

instance (e : Except String String) : Decidable (criticOkNoAgree e) :=
  match e with
  | .ok c => inferInstanceAs (Decidable (extract_agreement c ≠ some true))
  | .error _ => inferInstanceAs (Decidable False)

/-- A debate round that terminates nothing: the Solver call at oracle
index `idx` succeeds without a truthy final answer and the Critic call
at `idx + 1` succeeds without agreement `true`. -/
def cleanRound (calls : Nat → Except String String) (idx : Nat) : Prop :=
  solverOkNoFinal (calls idx) ∧ criticOkNoAgree (calls (idx + 1))

instance (calls : Nat → Except String String) (idx : Nat) :
    Decidable (cleanRound calls idx) :=
  inferInstanceAs (Decidable (_ ∧ _))

/-- A recorded turn that is a Critic (Neil) turn whose extracted
agreement flag is `true`. -/
def agreeTrueTurn (t : DebateTurn) : Prop :=
  t.speaker = "Neil" ∧ t.agreement_flag = some true

instance (t : DebateTurn) : Decidable (agreeTrueTurn t) :=
  inferInstanceAs (Decidable (_ ∧ _))

/-- The temporal shape claimed of a turn list: any Critic turn with
agreement `true` is at most second-to-last, everything after it is a
Solver (Terrence) turn, and it is the only such Critic turn. -/
def goodTurns (ts : List DebateTurn) : Prop :=
  ∀ p (hp : p < ts.length), agreeTrueTurn ts[p] →
    ts.length ≤ p + 2 ∧
    (∀ q (hq : q < ts.length), p < q → ts[q].speaker = "Terrence") ∧
    (∀ q (hq : q < ts.length), q ≠ p → ¬ agreeTrueTurn ts[q])

/-- Oracle for spec Scenario A: the Solver answers untagged, the Critic
rejects twice and then agrees, and the finalization carries the tagged
answer. -/
def scenarioACalls : Nat → Except String String
  | 0 => .ok "The answer is 4"
  | 1 => .ok "<AGREE>false</AGREE> show more work"
  | 2 => .ok "Still 4, by direct computation"
  | 3 => .ok "<AGREE>false</AGREE> almost"
  | 4 => .ok "It is 4"
  | 5 => .ok "<AGREE>true</AGREE>"
  | _ => .ok "<FINAL>4</FINAL>"

/-- Oracle in which the Critic agrees in round 1 and the finalization
carries a tagged answer. -/
def callsAgreeThenFinal : Nat → Except String String
  | 0 => .ok "I claim the result is 4."
  | 1 => .ok "<AGREE>true</AGREE> convinced"
  | _ => .ok "<FINAL>4</FINAL>"

/-- Oracle in which the Critic agrees in round 1 but the finalization
tag wraps only whitespace. -/
def callsAgreeThenBlankFinal : Nat → Except String String
  | 0 => .ok "I claim the result is 4."
  | 1 => .ok "<AGREE>true</AGREE> convinced"
  | _ => .ok "<FINAL>   </FINAL>"

/-- Oracle in which the Critic never agrees (spec Scenario B). -/
def callsAlwaysReject (i : Nat) : Except String String :=
  if i % 2 = 0 then .ok "The result is 4." else .ok "<AGREE>false</AGREE> not yet"

/-- Oracle whose very first Solver response already carries a tagged
final answer. -/
def callsEarlyFinal : Nat → Except String String
  | _ => .ok "Short-circuit: <FINAL>4</FINAL>"

/-- `findSub` finds nothing exactly when `pat` matches at no position. -/
theorem findSub_eq_none_iff (pat : List Char) :
    ∀ text : List Char, findSub pat text = none ↔ ∀ i, ¬ pat <+: text.drop i := by
  intro text
  induction text with
  | nil =>
      by_cases h : pat <+: ([] : List Char)
      · simp only [findSub, if_pos h]
        constructor
        · intro hc; exact (Option.some_ne_none 0 hc).elim
        · intro hall; exact (hall 0 (by simpa using h)).elim
      · simp only [findSub, if_neg h]
        constructor
        · intro _ i
          simpa using h
        · intro _; trivial
  | cons c rest ih =>
      by_cases h : pat <+: (c :: rest)
      · simp only [findSub, if_pos h]
        constructor
        · intro hc; exact (Option.some_ne_none 0 hc).elim
        · intro hall; exact (hall 0 (by simpa using h)).elim
      · simp only [findSub, if_neg h]
        constructor
        · intro hc i
          have hrest : findSub pat rest = none := by
            cases hfr : findSub pat rest with
            | none => rfl
            | some n => rw [hfr] at hc; exact (Option.some_ne_none _ hc).elim
          cases i with
          | zero => simpa using h
          | succ i => simpa using (ih.mp hrest) i
        · intro hall
          have hrest : findSub pat rest = none := by
            apply ih.mpr
            intro i
            simpa using hall (i + 1)
          rw [hrest]; rfl

/-- `findSub` returns `i` exactly when `pat` matches at `i` and at no
earlier position: the leftmost-match rule. -/
theorem findSub_eq_some_iff (pat : List Char) :
    ∀ (text : List Char) (i : Nat), findSub pat text = some i ↔
      (pat <+: text.drop i ∧ ∀ j, j < i → ¬ pat <+: text.drop j) := by
  intro text
  induction text with
  | nil =>
      intro i
      by_cases h : pat <+: ([] : List Char)
      · simp only [findSub, if_pos h]
        constructor
        · intro hs
          have h0 : i = 0 := (Option.some.inj hs).symm
          subst h0
          exact ⟨by simpa using h, fun j hj => absurd hj (Nat.not_lt_zero j)⟩
        · rintro ⟨hpre, hmin⟩
          cases i with
          | zero => rfl
          | succ k =>
              exact ((hmin 0 (Nat.succ_pos k)) (by simpa using h)).elim
      · simp only [findSub, if_neg h]
        constructor
        · intro hc; exact (Option.noConfusion hc)
        · rintro ⟨hpre, _⟩
          exact (h (by simpa using hpre)).elim
  | cons c rest ih =>
      intro i
      by_cases h : pat <+: (c :: rest)
      · simp only [findSub, if_pos h]
        constructor
        · intro hs
          have h0 : i = 0 := (Option.some.inj hs).symm
          subst h0
          exact ⟨by simpa using h, fun j hj => absurd hj (Nat.not_lt_zero j)⟩
        · rintro ⟨hpre, hmin⟩
          cases i with
          | zero => rfl
          | succ k =>
              exact ((hmin 0 (Nat.succ_pos k)) (by simpa using h)).elim
      · simp only [findSub, if_neg h]
        cases i with
        | zero =>
            constructor
            · intro hc
              cases hfr : findSub pat rest with
              | none => rw [hfr] at hc; exact (Option.noConfusion hc)
              | some n =>
                  rw [hfr] at hc
                  simp at hc
            · rintro ⟨hpre, _⟩
              exact (h (by simpa using hpre)).elim
        | succ k =>
            constructor
            · intro hc
              have hk : findSub pat rest = some k := by
                cases hfr : findSub pat rest with
                | none => rw [hfr] at hc; exact (Option.noConfusion hc)
                | some n =>
                    rw [hfr] at hc
                    have hnk : n = k := by simpa using hc
                    exact congrArg some hnk
              obtain ⟨hpre, hmin⟩ := (ih k).mp hk
              refine ⟨by simpa using hpre, ?_⟩
              intro j hj
              cases j with
              | zero => simpa using h
              | succ j =>
                  have hj2 : j < k := by omega
                  simpa using hmin j hj2
            · rintro ⟨hpre, hmin⟩
              have hk : findSub pat rest = some k := by
                apply (ih k).mpr
                refine ⟨by simpa using hpre, ?_⟩
                intro j hj
                simpa using hmin (j + 1) (by omega)
              rw [hk]; rfl

/-- No agreement tag starts anywhere in the empty text. -/
theorem agreeTagAt_nil (i : Nat) : agreeTagAt [] i = none := by
  have h1 : ¬ agreeTruePat <+: ([] : List Char).drop i := by
    rw [List.drop_nil]; decide
  have h2 : ¬ agreeFalsePat <+: ([] : List Char).drop i := by
    rw [List.drop_nil]; decide
  simp only [agreeTagAt, if_neg h1, if_neg h2]

/-- Shifting the position by one past the head character. -/
theorem agreeTagAt_cons_succ (c : Char) (rest : List Char) (j : Nat) :
    agreeTagAt (c :: rest) (j + 1) = agreeTagAt rest j := by
  simp [agreeTagAt, List.drop_succ_cons]

/-- The scan returns nothing exactly when no agreement tag starts at
any position. -/
theorem agreeSearch_eq_none_iff (t : List Char) :
    agreeSearch t = none ↔ ∀ i, agreeTagAt t i = none := by
  induction t with
  | nil => simp [agreeSearch, agreeTagAt_nil]
  | cons c rest ih =>
      by_cases hT : agreeTruePat <+: (c :: rest)
      · simp only [agreeSearch, if_pos hT]
        constructor
        · intro hc; exact (Option.some_ne_none _ hc).elim
        · intro hall
          have h0 := hall 0
          rw [agreeTagAt, List.drop_zero, if_pos hT] at h0
          exact (Option.some_ne_none _ h0).elim
      · by_cases hF : agreeFalsePat <+: (c :: rest)
        · simp only [agreeSearch, if_neg hT, if_pos hF]
          constructor
          · intro hc; exact (Option.some_ne_none _ hc).elim
          · intro hall
            have h0 := hall 0
            rw [agreeTagAt, List.drop_zero, if_neg hT, if_pos hF] at h0
            exact (Option.some_ne_none _ h0).elim
        · simp only [agreeSearch, if_neg hT, if_neg hF]
          rw [ih]
          constructor
          · intro hall i
            cases i with
            | zero => rw [agreeTagAt, List.drop_zero, if_neg hT, if_neg hF]
            | succ j => rw [agreeTagAt_cons_succ]; exact hall j
          · intro hall j
            rw [← agreeTagAt_cons_succ c]
            exact hall (j + 1)

/-- The scan returns `b` exactly when some position carries an
agreement tag wrapping the token `b` and no earlier position carries
any agreement tag: the first tag wins and its token decides the
flag. -/
theorem agreeSearch_eq_some_iff (t : List Char) (b : Bool) :
    agreeSearch t = some b ↔
      ∃ i, agreeTagAt t i = some b ∧ ∀ j, j < i → agreeTagAt t j = none := by
  induction t with
  | nil =>
      simp only [agreeSearch]
      constructor
      · intro hc; exact (Option.noConfusion hc)
      · rintro ⟨i, hi, -⟩
        rw [agreeTagAt_nil] at hi
        exact (Option.noConfusion hi)
  | cons c rest ih =>
      by_cases hT : agreeTruePat <+: (c :: rest)
      · simp only [agreeSearch, if_pos hT]
        have h0 : agreeTagAt (c :: rest) 0 = some true := by
          rw [agreeTagAt, List.drop_zero, if_pos hT]
        constructor
        · intro hc
          have hb : b = true := by
            have := Option.some.inj hc; exact this.symm
          subst hb
          exact ⟨0, h0, fun j hj => absurd hj (Nat.not_lt_zero j)⟩
        · rintro ⟨i, hi, hmin⟩
          cases i with
          | zero =>
              rw [h0] at hi
              rw [Option.some.inj hi]
          | succ k =>
              have := hmin 0 (Nat.succ_pos k)
              rw [h0] at this
              exact (Option.some_ne_none _ this).elim
      · by_cases hF : agreeFalsePat <+: (c :: rest)
        · simp only [agreeSearch, if_neg hT, if_pos hF]
          have h0 : agreeTagAt (c :: rest) 0 = some false := by
            rw [agreeTagAt, List.drop_zero, if_neg hT, if_pos hF]
          constructor
          · intro hc
            have hb : b = false := by
              have := Option.some.inj hc; exact this.symm
            subst hb
            exact ⟨0, h0, fun j hj => absurd hj (Nat.not_lt_zero j)⟩
          · rintro ⟨i, hi, hmin⟩
            cases i with
            | zero =>
                rw [h0] at hi
                rw [Option.some.inj hi]
            | succ k =>
                have := hmin 0 (Nat.succ_pos k)
                rw [h0] at this
                exact (Option.some_ne_none _ this).elim
        · simp only [agreeSearch, if_neg hT, if_neg hF]
          have h0 : agreeTagAt (c :: rest) 0 = none := by
            rw [agreeTagAt, List.drop_zero, if_neg hT, if_neg hF]
          rw [ih]
          constructor
          · rintro ⟨i, hi, hmin⟩
            refine ⟨i + 1, by rwa [agreeTagAt_cons_succ], ?_⟩
            intro j hj
            cases j with
            | zero => exact h0
            | succ j2 =>
                rw [agreeTagAt_cons_succ]
                exact hmin j2 (by omega)
          · rintro ⟨i, hi, hmin⟩
            cases i with
            | zero =>
                rw [h0] at hi
                exact (Option.noConfusion hi)
            | succ k =>
                rw [agreeTagAt_cons_succ] at hi
                refine ⟨k, hi, ?_⟩
                intro j hj
                have := hmin (j + 1) (by omega)
                rwa [agreeTagAt_cons_succ] at this

/-- C3: `extract_agreement` performs a case-insensitive search for the
first occurrence of an agreement tag wrapping `true` or `false`: it
returns `none` exactly when no agreement tag starts at any position of
the lowercased text, and returns `some b` exactly when some position
carries a tag wrapping token `b` (`true` ↦ `true`, `false` ↦ `false`)
and no earlier position carries any agreement tag. -/
theorem C3_extract_agreement_first_tag (s : String) :
    (extract_agreement s = none ↔ ∀ i, agreeTagAt (lowerChars s) i = none) ∧
    (∀ b : Bool, extract_agreement s = some b ↔
      ∃ i, agreeTagAt (lowerChars s) i = some b ∧
        ∀ j, j < i → agreeTagAt (lowerChars s) j = none) :=
  ⟨agreeSearch_eq_none_iff (lowerChars s),
   fun b => agreeSearch_eq_some_iff (lowerChars s) b⟩

/-- Unfolding `extract_final_answer` when no opening tag occurs. -/
theorem extract_final_eq_none_of_noOpen (s : String)
    (h : findSub finalOpenPat (lowerChars s) = none) :
    extract_final_answer s = none := by
  simp only [extract_final_answer, h]

/-- Unfolding `extract_final_answer` when an opening tag occurs but no
closing tag follows it. -/
theorem extract_final_eq_none_of_noClose (s : String) (i : Nat)
    (hO : findSub finalOpenPat (lowerChars s) = some i)
    (hC : findSub finalClosePat ((lowerChars s).drop (i + 7)) = none) :
    extract_final_answer s = none := by
  simp only [extract_final_answer, hO, hC]

/-- Unfolding `extract_final_answer` on a complete match. -/
theorem extract_final_eq_some_of (s : String) (i j : Nat)
    (hO : findSub finalOpenPat (lowerChars s) = some i)
    (hC : findSub finalClosePat ((lowerChars s).drop (i + 7)) = some j) :
    extract_final_answer s =
      some (String.mk (trimChars ((s.data.drop (i + 7)).take j))) := by
  simp only [extract_final_answer, hO, hC]

/-- C4: `extract_final_answer` implements the case-insensitive,
non-greedy, multi-line (DOTALL) leftmost match of the finalization tag:
it returns `none` exactly when no complete finalization tag occurs, and
`some r` exactly when `r` is the whitespace-trimmed content of the
leftmost match, the match being at the earliest possible start position
and, non-greedily, with the earliest possible closing tag. -/
theorem C4_extract_final_leftmost_trimmed (s : String) :
    (extract_final_answer s = none ↔ ∀ i j, ¬ finalMatchAt (lowerChars s) i j) ∧
    (∀ r : String, extract_final_answer s = some r ↔
      ∃ i j, finalMatchAt (lowerChars s) i j ∧
        (∀ i2, i2 < i → ∀ j2, ¬ finalMatchAt (lowerChars s) i2 j2) ∧
        (∀ j2, j2 < j → ¬ finalClosePat <+: (lowerChars s).drop (i + 7 + j2)) ∧
        r = String.mk (trimChars ((s.data.drop (i + 7)).take j))) := by
  cases hO : findSub finalOpenPat (lowerChars s) with
  | none =>
      have hno : ∀ i, ¬ finalOpenPat <+: (lowerChars s).drop i :=
        (findSub_eq_none_iff _ _).mp hO
      have hN := extract_final_eq_none_of_noOpen s hO
      constructor
      · rw [hN]
        constructor
        · intro _ i j hm
          exact hno i hm.1
        · intro _; rfl
      · intro r
        rw [hN]
        constructor
        · intro hc; exact (Option.noConfusion hc)
        · rintro ⟨i, j, hm, -, -, -⟩
          exact (hno i hm.1).elim
  | some i =>
      obtain ⟨hOpre, hOmin⟩ := (findSub_eq_some_iff _ _ _).mp hO
      cases hC : findSub finalClosePat ((lowerChars s).drop (i + 7)) with
      | none =>
          have hnc : ∀ k, ¬ finalClosePat <+: ((lowerChars s).drop (i + 7)).drop k :=
            (findSub_eq_none_iff _ _).mp hC
          have hnc2 : ∀ p, i + 7 ≤ p → ¬ finalClosePat <+: (lowerChars s).drop p := by
            intro p hp hpre
            have hk := hnc (p - (i + 7))
            rw [List.drop_drop] at hk
            have heq : i + 7 + (p - (i + 7)) = p := by omega
            rw [heq] at hk
            exact hk hpre
          have hnomatch : ∀ i2 j2, ¬ finalMatchAt (lowerChars s) i2 j2 := by
            rintro i2 j2 ⟨h1, h2⟩
            have hi2 : ¬ i2 < i := fun hlt => hOmin i2 hlt h1
            exact hnc2 (i2 + 7 + j2) (by omega) h2
          have hN := extract_final_eq_none_of_noClose s i hO hC
          constructor
          · rw [hN]
            exact ⟨fun _ => hnomatch, fun _ => rfl⟩
          · intro r
            rw [hN]
            constructor
            · intro hc; exact (Option.noConfusion hc)
            · rintro ⟨i2, j2, hm, -⟩
              exact (hnomatch i2 j2 hm).elim
      | some j =>
          obtain ⟨hCpre, hCmin⟩ := (findSub_eq_some_iff _ _ _).mp hC
          have hClose : finalClosePat <+: (lowerChars s).drop (i + 7 + j) := by
            rwa [List.drop_drop] at hCpre
          have hmatch : finalMatchAt (lowerChars s) i j := ⟨hOpre, hClose⟩
          have hS := extract_final_eq_some_of s i j hO hC
          have hCmin2 : ∀ j2, j2 < j →
              ¬ finalClosePat <+: (lowerChars s).drop (i + 7 + j2) := by
            intro j2 hj2 hpre
            have hk := hCmin j2 hj2
            rw [List.drop_drop] at hk
            exact hk hpre
          constructor
          · rw [hS]
            constructor
            · intro hc; exact (Option.noConfusion hc)
            · intro hall; exact (hall i j hmatch).elim
          · intro r
            rw [hS]
            constructor
            · intro hc
              have hr : r = String.mk (trimChars ((s.data.drop (i + 7)).take j)) :=
                (Option.some.inj hc).symm
              refine ⟨i, j, hmatch, ?_, hCmin2, hr⟩
              rintro i2 hi2 j2 ⟨h1, -⟩
              exact hOmin i2 hi2 h1
            · rintro ⟨i2, j2, hm2, hmin_i, hmin_j, hr⟩
              have hii : i2 = i := by
                by_contra hne
                rcases Nat.lt_or_ge i2 i with hlt | hge
                · exact hOmin i2 hlt hm2.1
                · have hlt2 : i < i2 := by omega
                  exact hmin_i i hlt2 j hmatch
              subst hii
              have hjj : j2 = j := by
                by_contra hne
                rcases Nat.lt_or_ge j2 j with hlt | hge
                · exact hCmin2 j2 hlt hm2.2
                · have hlt2 : j < j2 := by omega
                  exact hmin_j j hlt2 hClose
              subst hjj
              rw [hr]

/-- One non-terminating round: a Solver response with no truthy final
answer followed by a Critic response without agreement advances the
loop to the next round, appending the two turns and bumping the round
counter. -/
theorem debateRounds_clean_step (calls : Nat → Except String String)
    (maxRounds remaining roundNum idx : Nat) (result : DebateResult)
    (tr nr : String)
    (hT : calls idx = .ok tr) (hTf : truthy (extract_final_answer tr) = false)
    (hN : calls (idx + 1) = .ok nr) (hNa : extract_agreement nr ≠ some true) :
    debateRounds calls maxRounds (remaining + 1) roundNum idx result =
      debateRounds calls maxRounds remaining (roundNum + 1) (idx + 2)
        { result with rounds := roundNum + 1,
                      turns := result.turns ++ [mkSolverTurn tr, mkCriticTurn nr] } := by
  conv_lhs => rw [debateRounds]
  simp only [hT, hTf, Bool.false_eq_true, if_false, hN, if_neg hNa]

/-- The round counter of the loop output never exceeds `maxRounds`,
whatever the oracle returns. -/
theorem debateRounds_rounds_le (calls : Nat → Except String String) (maxRounds : Nat) :
    ∀ (remaining roundNum idx : Nat) (result : DebateResult),
      result.rounds ≤ roundNum → roundNum + remaining ≤ maxRounds →
      (debateRounds calls maxRounds remaining roundNum idx result).rounds ≤ maxRounds := by
  intro remaining
  induction remaining with
  | zero =>
      intro roundNum idx result h1 h2
      simp only [debateRounds]
      split
      · simp; omega
      · omega
  | succ rem ih =>
      intro roundNum idx result h1 h2
      cases hT : calls idx with
      | error msg =>
          simp only [debateRounds, hT]
          try simp
          omega
      | ok tr =>
          by_cases hTf : truthy (extract_final_answer tr) = true
          · simp only [debateRounds, hT]
            simp [hTf]; omega
          · cases hN : calls (idx + 1) with
            | error msg =>
                simp only [debateRounds, hT, hN]
                simp [hTf]; omega
            | ok nr =>
                by_cases hNa : extract_agreement nr = some true
                · cases hF : calls (idx + 2) with
                  | error msg =>
                      simp only [debateRounds, hT, hN, hF]
                      simp [hTf, hNa]; omega
                  | ok fr =>
                      by_cases hFf : truthy (extract_final_answer fr) = true
                      · simp only [debateRounds, hT, hN, hF]
                        simp [hTf, hNa, hFf]; omega
                      · simp only [debateRounds, hT, hN, hF]
                        simp [hTf, hNa, hFf]; omega
                · simp only [debateRounds, hT, hN]
                  simp only [if_neg hTf, Bool.false_eq_true, if_false, if_neg hNa]
                  exact ih (roundNum + 1) (idx + 2) _ (by simp) (by omega)

/-- C7: for every oracle, expression and round budget, the
rounds-completed field of the returned result is at most the round
budget. -/
theorem C7_rounds_le_max (calls : Nat → Except String String)
    (expression : String) (maxRounds : Nat) :
    (debate calls expression maxRounds).rounds ≤ maxRounds :=
  debateRounds_rounds_le calls maxRounds maxRounds 0 0 _ (by simp) (by omega)

/-- If every remaining round is clean (Solver call ok without truthy
final answer, Critic call ok without agreement), the loop runs them all
and the post-loop check fires: TIMEOUT, no final answer, and the
round-budget message. -/
theorem debateRounds_timeout (calls : Nat → Except String String) (maxRounds : Nat) :
    ∀ (remaining roundNum idx : Nat) (result : DebateResult),
      result.status = DebateStatus.in_progress →
      result.final_answer = none →
      (∀ m, m < remaining → cleanRound calls (idx + 2 * m)) →
      (debateRounds calls maxRounds remaining roundNum idx result).status =
          DebateStatus.timeout ∧
      (debateRounds calls maxRounds remaining roundNum idx result).final_answer = none ∧
      (debateRounds calls maxRounds remaining roundNum idx result).error_message =
          some (timeoutMessage maxRounds) := by
  intro remaining
  induction remaining with
  | zero =>
      intro roundNum idx result hst hfa _
      simp [debateRounds, hst, hfa]
  | succ rem ih =>
      intro roundNum idx result hst hfa hclean
      obtain ⟨hs, hc⟩ := hclean 0 (Nat.succ_pos rem)
      simp only [Nat.mul_zero, Nat.add_zero] at hs hc
      cases hT : calls idx with
      | error msg => rw [hT] at hs; exact hs.elim
      | ok tr =>
          rw [hT] at hs
          cases hN : calls (idx + 1) with
          | error msg => rw [hN] at hc; exact hc.elim
          | ok nr =>
              rw [hN] at hc
              rw [debateRounds_clean_step calls maxRounds rem roundNum idx result
                    tr nr hT hs hN hc]
              refine ih (roundNum + 1) (idx + 2) _ (by simpa using hst)
                (by simpa using hfa) ?_
              intro m hm
              have hmm := hclean (m + 1) (by omega)
              have heq : idx + 2 * (m + 1) = idx + 2 + 2 * m := by omega
              rwa [heq] at hmm

/-- C2: if all `maxRounds` rounds complete without any terminal event
(the Solver never produces a truthy final answer, the Critic never
agrees, and no provider call fails), the result status is TIMEOUT, the
final answer is absent, and the error message is the round-budget
message naming `maxRounds`. -/
theorem C2_timeout_round_budget (calls : Nat → Except String String)
    (expression : String) (maxRounds : Nat)
    (hclean : ∀ m, m < maxRounds → cleanRound calls (2 * m)) :
    (debate calls expression maxRounds).status = DebateStatus.timeout ∧
    (debate calls expression maxRounds).final_answer = none ∧
    (debate calls expression maxRounds).error_message =
      some (timeoutMessage maxRounds) :=
  debateRounds_timeout calls maxRounds maxRounds 0 0 _ rfl rfl
    (fun m hm => by simpa using hclean m hm)

/-- Witness for C2: spec Scenario B with `max_rounds = 2` and a Critic
that always rejects. -/
theorem C2_timeout_round_budget_witness :
    (∀ m, m < 2 → cleanRound callsAlwaysReject (2 * m)) ∧
    ((debate callsAlwaysReject "2+2" 2).status = DebateStatus.timeout ∧
     (debate callsAlwaysReject "2+2" 2).final_answer = none ∧
     (debate callsAlwaysReject "2+2" 2).error_message =
       some (timeoutMessage 2)) :=
  ⟨by decide, C2_timeout_round_budget callsAlwaysReject "2+2" 2 (by decide)⟩

/-- If the first `k` rounds are clean and the Solver response of round
`k + 1` carries a truthy final answer, the loop completes immediately:
COMPLETED, the answer stored, `k + 1` rounds, and `2 * k + 1` turns
appended (no Critic turn in the last round). -/
theorem debateRounds_early_final (calls : Nat → Except String String) (maxRounds : Nat) :
    ∀ (k remaining roundNum idx : Nat) (result : DebateResult) (sr a : String),
      (∀ m, m < k → cleanRound calls (idx + 2 * m)) →
      k < remaining →
      calls (idx + 2 * k) = .ok sr →
      extract_final_answer sr = some a →
      a ≠ "" →
      (debateRounds calls maxRounds remaining roundNum idx result).status =
          DebateStatus.completed ∧
      (debateRounds calls maxRounds remaining roundNum idx result).final_answer = some a ∧
      (debateRounds calls maxRounds remaining roundNum idx result).rounds =
          roundNum + k + 1 ∧
      (debateRounds calls maxRounds remaining roundNum idx result).turns.length =
          result.turns.length + 2 * k + 1 := by
  intro k
  induction k with
  | zero =>
      intro remaining roundNum idx result sr a _ hlt hcall hext hne
      obtain ⟨rem, rfl⟩ : ∃ rem, remaining = rem + 1 := ⟨remaining - 1, by omega⟩
      have hcall2 : calls idx = .ok sr := by simpa using hcall
      have htruthy2 : truthy (some a) = true := by
        simpa [truthy] using hne
      simp only [debateRounds, hcall2, hext, htruthy2]
      simp
  | succ k ih =>
      intro remaining roundNum idx result sr a hclean hlt hcall hext hne
      obtain ⟨rem, rfl⟩ : ∃ rem, remaining = rem + 1 := ⟨remaining - 1, by omega⟩
      obtain ⟨hs, hc⟩ := hclean 0 (Nat.succ_pos k)
      simp only [Nat.mul_zero, Nat.add_zero] at hs hc
      cases hT : calls idx with
      | error msg => rw [hT] at hs; exact hs.elim
      | ok tr =>
          rw [hT] at hs
          cases hN : calls (idx + 1) with
          | error msg => rw [hN] at hc; exact hc.elim
          | ok nr =>
              rw [hN] at hc
              rw [debateRounds_clean_step calls maxRounds rem roundNum idx result
                    tr nr hT hs hN hc]
              have hih := ih rem (roundNum + 1) (idx + 2)
                { result with rounds := roundNum + 1,
                              turns := result.turns ++ [mkSolverTurn tr, mkCriticTurn nr] }
                sr a
                (fun m hm => by
                  have hmm := hclean (m + 1) (by omega)
                  have heq : idx + 2 * (m + 1) = idx + 2 + 2 * m := by omega
                  rwa [heq] at hmm)
                (by omega)
                (by
                  have heq : idx + 2 * (k + 1) = idx + 2 + 2 * k := by omega
                  rwa [heq] at hcall)
                hext hne
              obtain ⟨h1, h2, h3, h4⟩ := hih
              refine ⟨h1, h2, by rw [h3]; omega, ?_⟩
              rw [h4]
              simp
              omega

/-- C6: if in some round (after only clean rounds) the Solver response
itself carries a truthy final-answer signal — a finalization tag whose
trimmed content is nonempty — the Orchestrator treats it as an
immediate completion: COMPLETED, the extracted answer stored, and the
loop stops with no Critic turn in that round (an odd turn count of
`2 * k + 1`). -/
theorem C6_early_final_completes (calls : Nat → Except String String)
    (expression : String) (maxRounds k : Nat) (sr a : String)
    (hclean : ∀ m, m < k → cleanRound calls (2 * m))
    (hk : k < maxRounds)
    (hcall : calls (2 * k) = .ok sr)
    (hext : extract_final_answer sr = some a)
    (hne : a ≠ "") :
    (debate calls expression maxRounds).status = DebateStatus.completed ∧
    (debate calls expression maxRounds).final_answer = some a ∧
    (debate calls expression maxRounds).rounds = k + 1 ∧
    (debate calls expression maxRounds).turns.length = 2 * k + 1 := by
  have h := debateRounds_early_final calls maxRounds k maxRounds 0 0
    { status := DebateStatus.in_progress, expression := expression } sr a
    (fun m hm => by simpa using hclean m hm) hk (by simpa using hcall) hext hne
  simpa using h

/-- Witness for C6: the very first Solver response is tagged
`<FINAL>4</FINAL>`, so the debate completes in round 1 with a single
recorded turn. -/
theorem C6_early_final_completes_witness :
    (callsEarlyFinal 0 = .ok "Short-circuit: <FINAL>4</FINAL>") ∧
    (extract_final_answer "Short-circuit: <FINAL>4</FINAL>" = some "4") ∧
    ((debate callsEarlyFinal "2+2" 1).status = DebateStatus.completed ∧
     (debate callsEarlyFinal "2+2" 1).final_answer = some "4" ∧
     (debate callsEarlyFinal "2+2" 1).rounds = 0 + 1 ∧
     (debate callsEarlyFinal "2+2" 1).turns.length = 2 * 0 + 1) :=
  ⟨rfl, by decide,
   C6_early_final_completes callsEarlyFinal "2+2" 1 0
     "Short-circuit: <FINAL>4</FINAL>" "4"
     (by decide) (by decide) rfl (by decide) (by decide)⟩

/-- If the first `k` rounds are clean and in round `k + 1` the Solver
responds without a truthy final answer, the Critic agrees, and the
finalization call succeeds with response `fr`, then the loop stops
after that finalization turn: `k + 1` rounds, `2 * k + 3` turns
appended, and the outcome is decided by the truthiness of the final
answer extracted from `fr`. -/
theorem debateRounds_agreement_round (calls : Nat → Except String String)
    (maxRounds : Nat) :
    ∀ (k remaining roundNum idx : Nat) (result : DebateResult) (sr cr fr : String),
      (∀ m, m < k → cleanRound calls (idx + 2 * m)) →
      k < remaining →
      calls (idx + 2 * k) = .ok sr →
      truthy (extract_final_answer sr) = false →
      calls (idx + 2 * k + 1) = .ok cr →
      extract_agreement cr = some true →
      calls (idx + 2 * k + 2) = .ok fr →
      result.final_answer = none →
      (debateRounds calls maxRounds remaining roundNum idx result).rounds =
          roundNum + k + 1 ∧
      (debateRounds calls maxRounds remaining roundNum idx result).turns.length =
          result.turns.length + 2 * k + 3 ∧
      (truthy (extract_final_answer fr) = true →
        (debateRounds calls maxRounds remaining roundNum idx result).status =
            DebateStatus.completed ∧
        (debateRounds calls maxRounds remaining roundNum idx result).final_answer =
            extract_final_answer fr) ∧
      (truthy (extract_final_answer fr) = false →
        (debateRounds calls maxRounds remaining roundNum idx result).status =
            DebateStatus.error ∧
        (debateRounds calls maxRounds remaining roundNum idx result).error_message =
            some finalizeFailMessage ∧
        (debateRounds calls maxRounds remaining roundNum idx result).final_answer =
            none) := by
  intro k
  induction k with
  | zero =>
      intro remaining roundNum idx result sr cr fr _ hlt hS hSf hC hCa hF hfa
      obtain ⟨rem, rfl⟩ : ∃ rem, remaining = rem + 1 := ⟨remaining - 1, by omega⟩
      have hS2 : calls idx = .ok sr := by simpa using hS
      have hC2 : calls (idx + 1) = .ok cr := by simpa using hC
      have hF2 : calls (idx + 2) = .ok fr := by simpa using hF
      simp only [debateRounds, hS2, hSf, Bool.false_eq_true, if_false, hC2,
        hCa, if_pos, hF2]
      refine ⟨?_, ?_, ?_, ?_⟩
      · split <;> simp
      · split <;> simp
      · intro htr
        rw [if_pos htr]
        exact ⟨rfl, rfl⟩
      · intro htr
        rw [if_neg (by simp [htr])]
        exact ⟨rfl, rfl, hfa⟩
  | succ k ih =>
      intro remaining roundNum idx result sr cr fr hclean hlt hS hSf hC hCa hF hfa
      obtain ⟨rem, rfl⟩ : ∃ rem, remaining = rem + 1 := ⟨remaining - 1, by omega⟩
      obtain ⟨hs, hc⟩ := hclean 0 (Nat.succ_pos k)
      simp only [Nat.mul_zero, Nat.add_zero] at hs hc
      cases hT : calls idx with
      | error msg => rw [hT] at hs; exact hs.elim
      | ok tr =>
          rw [hT] at hs
          cases hN : calls (idx + 1) with
          | error msg => rw [hN] at hc; exact hc.elim
          | ok nr =>
              rw [hN] at hc
              rw [debateRounds_clean_step calls maxRounds rem roundNum idx result
                    tr nr hT hs hN hc]
              have hih := ih rem (roundNum + 1) (idx + 2)
                { result with rounds := roundNum + 1,
                              turns := result.turns ++ [mkSolverTurn tr, mkCriticTurn nr] }
                sr cr fr
                (fun m hm => by
                  have hmm := hclean (m + 1) (by omega)
                  have heq : idx + 2 * (m + 1) = idx + 2 + 2 * m := by omega
                  rwa [heq] at hmm)
                (by omega)
                (by
                  have heq : idx + 2 * (k + 1) = idx + 2 + 2 * k := by omega
                  rwa [heq] at hS)
                hSf
                (by
                  have heq : idx + 2 * (k + 1) + 1 = idx + 2 + 2 * k + 1 := by omega
                  rwa [heq] at hC)
                hCa
                (by
                  have heq : idx + 2 * (k + 1) + 2 = idx + 2 + 2 * k + 2 := by omega
                  rwa [heq] at hF)
                (by simpa using hfa)
              obtain ⟨h1, h2, h3, h4⟩ := hih
              refine ⟨by rw [h1]; omega, ?_, h3, h4⟩
              rw [h2]
              simp
              omega

/-- C1 (amended): once a Critic turn yields agreement `true`, the
Orchestrator issues exactly one further Solver finalization turn and
stops the round loop.  If the finalization response carries a final
answer that is non-absent and nonempty after trimming, the status is
COMPLETED with that answer stored; if the final answer is absent — or
present but trimming to the empty string, which the truthiness
check treats as absent — the status is ERROR with the
failed-to-finalize message. -/
theorem C1_agreement_finalization (calls : Nat → Except String String)
    (expression : String) (maxRounds k : Nat) (sr cr fr : String)
    (hclean : ∀ m, m < k → cleanRound calls (2 * m))
    (hk : k < maxRounds)
    (hS : calls (2 * k) = .ok sr)
    (hSf : truthy (extract_final_answer sr) = false)
    (hC : calls (2 * k + 1) = .ok cr)
    (hCa : extract_agreement cr = some true)
    (hF : calls (2 * k + 2) = .ok fr) :
    (debate calls expression maxRounds).rounds = k + 1 ∧
    (debate calls expression maxRounds).turns.length = 2 * k + 3 ∧
    (∀ a, extract_final_answer fr = some a → a ≠ "" →
      (debate calls expression maxRounds).status = DebateStatus.completed ∧
      (debate calls expression maxRounds).final_answer = some a) ∧
    ((extract_final_answer fr = none ∨ extract_final_answer fr = some "") →
      (debate calls expression maxRounds).status = DebateStatus.error ∧
      (debate calls expression maxRounds).error_message = some finalizeFailMessage ∧
      (debate calls expression maxRounds).final_answer = none) := by
  have h := debateRounds_agreement_round calls maxRounds k maxRounds 0 0
    { status := DebateStatus.in_progress, expression := expression } sr cr fr
    (fun m hm => by simpa using hclean m hm) hk (by simpa using hS) hSf
    (by simpa using hC) hCa (by simpa using hF) rfl
  obtain ⟨h1, h2, h3, h4⟩ := h
  refine ⟨by simpa using h1, by simpa using h2, ?_, ?_⟩
  · intro a hext hne
    have htr : truthy (extract_final_answer fr) = true := by
      rw [hext]; simpa [truthy] using hne
    obtain ⟨hst, hfa⟩ := h3 htr
    exact ⟨hst, hfa.trans hext⟩
  · intro hcase
    have htr : truthy (extract_final_answer fr) = false := by
      rcases hcase with hnone | hblank
      · rw [hnone]; rfl
      · rw [hblank]; rfl
    exact h4 htr

/-- C1 counterexample: the claim as stated says a non-absent final
answer yields COMPLETED, but with the blank finalization response
`<FINAL>   </FINAL>` the extracted final answer is non-absent
(`some ""`) while the code sets ERROR and stores no answer. -/
theorem C1_counterexample_blank_final :
    extract_final_answer "<FINAL>   </FINAL>" = some "" ∧
    (debate callsAgreeThenBlankFinal "2+2" 3).status = DebateStatus.error ∧
    (debate callsAgreeThenBlankFinal "2+2" 3).status ≠ DebateStatus.completed ∧
    (debate callsAgreeThenBlankFinal "2+2" 3).final_answer = none ∧
    (debate callsAgreeThenBlankFinal "2+2" 3).error_message =
      some finalizeFailMessage := by decide

/-- Witness for the amended C1: Critic agrees in round 1, finalization
is `<FINAL>4</FINAL>`. -/
theorem C1_agreement_finalization_witness :
    ((debate callsAgreeThenFinal "2+2" 2).rounds = 0 + 1 ∧
     (debate callsAgreeThenFinal "2+2" 2).turns.length = 2 * 0 + 3 ∧
     (∀ a, extract_final_answer "<FINAL>4</FINAL>" = some a → a ≠ "" →
       (debate callsAgreeThenFinal "2+2" 2).status = DebateStatus.completed ∧
       (debate callsAgreeThenFinal "2+2" 2).final_answer = some a) ∧
     ((extract_final_answer "<FINAL>4</FINAL>" = none ∨
       extract_final_answer "<FINAL>4</FINAL>" = some "") →
       (debate callsAgreeThenFinal "2+2" 2).status = DebateStatus.error ∧
       (debate callsAgreeThenFinal "2+2" 2).error_message = some finalizeFailMessage ∧
       (debate callsAgreeThenFinal "2+2" 2).final_answer = none)) :=
  C1_agreement_finalization callsAgreeThenFinal "2+2" 2 0
    "I claim the result is 4." "<AGREE>true</AGREE> convinced" "<FINAL>4</FINAL>"
    (by decide) (by decide) rfl (by decide) rfl (by decide) rfl

/-- C10: when the Critic has agreed and the content of the finalization
tag trims to the empty string, the extracted `some ""` fails
the truthiness check, so the Orchestrator reports ERROR with the
failed-to-finalize message and stores no final answer, rather than
COMPLETED with an empty answer. -/
theorem C10_blank_final_is_error (calls : Nat → Except String String)
    (expression : String) (maxRounds k : Nat) (sr cr fr : String)
    (hclean : ∀ m, m < k → cleanRound calls (2 * m))
    (hk : k < maxRounds)
    (hS : calls (2 * k) = .ok sr)
    (hSf : truthy (extract_final_answer sr) = false)
    (hC : calls (2 * k + 1) = .ok cr)
    (hCa : extract_agreement cr = some true)
    (hF : calls (2 * k + 2) = .ok fr)
    (hblank : extract_final_answer fr = some "") :
    (debate calls expression maxRounds).status = DebateStatus.error ∧
    (debate calls expression maxRounds).status ≠ DebateStatus.completed ∧
    (debate calls expression maxRounds).error_message = some finalizeFailMessage ∧
    (debate calls expression maxRounds).final_answer = none := by
  have h := debateRounds_agreement_round calls maxRounds k maxRounds 0 0
    { status := DebateStatus.in_progress, expression := expression } sr cr fr
    (fun m hm => by simpa using hclean m hm) hk (by simpa using hS) hSf
    (by simpa using hC) hCa (by simpa using hF) rfl
  have htr : truthy (extract_final_answer fr) = false := by rw [hblank]; rfl
  obtain ⟨hst, hmsg, hfa⟩ := h.2.2.2 htr
  refine ⟨hst, ?_, hmsg, hfa⟩
  intro hcomp
  exact absurd (hst.symm.trans hcomp) (by decide)

/-- Witness for C10: finalization response `<FINAL>   </FINAL>`. -/
theorem C10_blank_final_is_error_witness :
    (extract_final_answer "<FINAL>   </FINAL>" = some "") ∧
    ((debate callsAgreeThenBlankFinal "2+2" 1).status = DebateStatus.error ∧
     (debate callsAgreeThenBlankFinal "2+2" 1).status ≠ DebateStatus.completed ∧
     (debate callsAgreeThenBlankFinal "2+2" 1).error_message =
       some finalizeFailMessage ∧
     (debate callsAgreeThenBlankFinal "2+2" 1).final_answer = none) :=
  ⟨by decide,
   C10_blank_final_is_error callsAgreeThenBlankFinal "2+2" 1 0
     "I claim the result is 4." "<AGREE>true</AGREE> convinced" "<FINAL>   </FINAL>"
     (by decide) (by decide) rfl (by decide) rfl (by decide) rfl (by decide)⟩

/-- C5 counterexample: under spec Scenario A (Critic rejects in rounds
1 and 2, agrees in round 3, finalization tagged) the debate records
seven turns — three Solver/Critic pairs plus the finalization turn —
so the claimed turn count of five is wrong while every other claimed
outcome holds. -/
theorem C5_counterexample_turn_count :
    (debate scenarioACalls "2+2" 12).status = DebateStatus.completed ∧
    (debate scenarioACalls "2+2" 12).rounds = 3 ∧
    (debate scenarioACalls "2+2" 12).final_answer = some "4" ∧
    (debate scenarioACalls "2+2" 12).turns.length ≠ 5 := by decide

/-- C5 (amended): Scenario A yields status COMPLETED, three rounds,
seven recorded turns, and the tagged final answer. -/
theorem C5_scenarioA_amended :
    (debate scenarioACalls "2+2" 12).status = DebateStatus.completed ∧
    (debate scenarioACalls "2+2" 12).rounds = 3 ∧
    (debate scenarioACalls "2+2" 12).turns.length = 7 ∧
    (debate scenarioACalls "2+2" 12).final_answer = some "4" := by decide

/-- A turn list with no agreeing Critic turn trivially has the claimed
temporal shape. -/
theorem goodTurns_of_no_agree (ts : List DebateTurn)
    (h : ∀ t ∈ ts, ¬ agreeTrueTurn t) : goodTurns ts := by
  intro p hp hap
  exact absurd hap (h _ (List.getElem_mem hp))

/-- An element of a cons cell at a positive index lies in the tail. -/
theorem getElem_cons_mem_of_pos (a : DebateTurn) (l : List DebateTurn) :
    ∀ (i : Nat) (h : i < (a :: l).length), 0 < i → (a :: l)[i] ∈ l := by
  intro i h hi
  cases i with
  | zero => omega
  | succ i2 => exact List.getElem_mem _

/-- An element of `ts0 ++ a :: post` at an index beyond `ts0.length`
lies in `post`. -/
theorem getElem_append_mem_post (ts0 : List DebateTurn) (a : DebateTurn)
    (post : List DebateTurn) (q : Nat) (hq : q < (ts0 ++ a :: post).length)
    (hgt : ts0.length < q) : (ts0 ++ a :: post)[q] ∈ post := by
  rw [List.getElem_append_right (Nat.le_of_lt hgt)]
  apply getElem_cons_mem_of_pos
  omega

/-- If `ts0` has no agreeing Critic turn, everything in `post` is a
Solver (Terrence) turn and `post` has at most one element, then
`ts0 ++ a :: post` has the claimed temporal shape, `a` being the only
position where an agreeing Critic turn can sit. -/
theorem goodTurns_append_agree (ts0 : List DebateTurn) (a : DebateTurn)
    (post : List DebateTurn)
    (h0 : ∀ t ∈ ts0, ¬ agreeTrueTurn t)
    (hpost : ∀ t ∈ post, t.speaker = "Terrence")
    (hlen : post.length ≤ 1) :
    goodTurns (ts0 ++ a :: post) := by
  have hlen_total : (ts0 ++ a :: post).length = ts0.length + post.length + 1 := by
    simp only [List.length_append, List.length_cons]
    omega
  have hpost_not : ∀ t ∈ post, ¬ agreeTrueTurn t := by
    intro t ht hA
    exact absurd ((hpost t ht).symm.trans hA.1) (by decide)
  intro p hp hap
  have hp_eq : p = ts0.length := by
    rcases Nat.lt_trichotomy p ts0.length with hlt | heq | hgt
    · rw [List.getElem_append_left hlt] at hap
      exact absurd hap (h0 _ (List.getElem_mem _))
    · exact heq
    · exact absurd hap (hpost_not _ (getElem_append_mem_post ts0 a post p hp hgt))
  subst hp_eq
  refine ⟨by omega, ?_, ?_⟩
  · intro q hq hpq
    exact hpost _ (getElem_append_mem_post ts0 a post q hq hpq)
  · intro q hq hqp
    rcases Nat.lt_trichotomy q ts0.length with hlt | heq | hgt
    · rw [List.getElem_append_left hlt]
      exact h0 _ (List.getElem_mem _)
    · exact absurd heq hqp
    · exact hpost_not _ (getElem_append_mem_post ts0 a post q hq hgt)

/-- Loop invariant: starting from a turn list with no agreeing Critic
turn, the loop output always has the claimed temporal shape, whatever
the oracle returns. -/
theorem debateRounds_goodTurns (calls : Nat → Except String String) (maxRounds : Nat) :
    ∀ (remaining roundNum idx : Nat) (result : DebateResult),
      (∀ t ∈ result.turns, ¬ agreeTrueTurn t) →
      goodTurns (debateRounds calls maxRounds remaining roundNum idx result).turns := by
  intro remaining
  induction remaining with
  | zero =>
      intro roundNum idx result h
      simp only [debateRounds]
      split
      · exact goodTurns_of_no_agree _ (by simpa using h)
      · exact goodTurns_of_no_agree _ h
  | succ rem ih =>
      intro roundNum idx result h
      have hsolver : ∀ tr : String, ¬ agreeTrueTurn (mkSolverTurn tr) := by
        intro tr hA
        have hc : ("Terrence" : String) = "Neil" := hA.1
        exact absurd hc (by decide)
      cases hT : calls idx with
      | error msg =>
          simp only [debateRounds, hT]
          exact goodTurns_of_no_agree _ (by simpa using h)
      | ok tr =>
          by_cases hTf : truthy (extract_final_answer tr) = true
          · simp only [debateRounds, hT]
            rw [if_pos hTf]
            apply goodTurns_of_no_agree
            intro t ht
            have ht2 : t ∈ result.turns ∨ t = mkSolverTurn tr := by simpa using ht
            rcases ht2 with ht0 | rfl
            · exact h t ht0
            · exact hsolver tr
          · cases hN : calls (idx + 1) with
            | error msg =>
                simp only [debateRounds, hT, hN]
                rw [if_neg hTf]
                apply goodTurns_of_no_agree
                intro t ht
                have ht2 : t ∈ result.turns ∨ t = mkSolverTurn tr := by simpa using ht
                rcases ht2 with ht0 | rfl
                · exact h t ht0
                · exact hsolver tr
            | ok nr =>
                have hts0 : ∀ t ∈ result.turns ++ [mkSolverTurn tr], ¬ agreeTrueTurn t := by
                  intro t ht
                  have ht2 : t ∈ result.turns ∨ t = mkSolverTurn tr := by simpa using ht
                  rcases ht2 with ht0 | rfl
                  · exact h t ht0
                  · exact hsolver tr
                by_cases hNa : extract_agreement nr = some true
                · cases hF : calls (idx + 2) with
                  | error msg =>
                      simp only [debateRounds, hT, hN, hF]
                      rw [if_neg hTf, if_pos hNa]
                      show goodTurns (result.turns ++ [mkSolverTurn tr, mkCriticTurn nr])
                      have hsplit : result.turns ++ [mkSolverTurn tr, mkCriticTurn nr] =
                          (result.turns ++ [mkSolverTurn tr]) ++ mkCriticTurn nr :: [] := by
                        simp
                      rw [hsplit]
                      apply goodTurns_append_agree _ _ _ hts0
                      · intro t ht; exact absurd ht (List.not_mem_nil t)
                      · simp
                  | ok fr =>
                      simp only [debateRounds, hT, hN, hF]
                      rw [if_neg hTf, if_pos hNa]
                      have hsplit : result.turns ++
                            [mkSolverTurn tr, mkCriticTurn nr, mkSolverTurn fr] =
                          (result.turns ++ [mkSolverTurn tr]) ++
                            mkCriticTurn nr :: [mkSolverTurn fr] := by
                        simp
                      have hpost1 : ∀ t ∈ [mkSolverTurn fr], t.speaker = "Terrence" := by
                        intro t ht
                        have ht2 : t = mkSolverTurn fr := by simpa using ht
                        rw [ht2]
                        rfl
                      by_cases hFf : truthy (extract_final_answer fr) = true
                      · rw [if_pos hFf]
                        show goodTurns (result.turns ++
                          [mkSolverTurn tr, mkCriticTurn nr, mkSolverTurn fr])
                        rw [hsplit]
                        apply goodTurns_append_agree _ _ _ hts0 hpost1
                        simp
                      · rw [if_neg hFf]
                        show goodTurns (result.turns ++
                          [mkSolverTurn tr, mkCriticTurn nr, mkSolverTurn fr])
                        rw [hsplit]
                        apply goodTurns_append_agree _ _ _ hts0 hpost1
                        simp
                · simp only [debateRounds, hT, hN]
                  rw [if_neg hTf, if_neg hNa]
                  apply ih
                  intro t ht
                  have ht2 : t ∈ result.turns ∨ t = mkSolverTurn tr ∨ t = mkCriticTurn nr := by
                    simpa using ht
                  rcases ht2 with ht0 | rfl | rfl
                  · exact h t ht0
                  · exact hsolver tr
                  · intro hA
                    exact hNa (by simpa [mkCriticTurn] using hA.2)

/-- C8: once a recorded Critic (Neil) turn carries agreement flag
`true`, no later recorded turn is a Critic turn: at most one turn
follows it, every later turn is a Solver (Terrence) turn, and no other
turn in the debate is a Critic agreement-true turn. -/
theorem C8_no_critic_after_agreement (calls : Nat → Except String String)
    (expression : String) (maxRounds p : Nat)
    (hp : p < (debate calls expression maxRounds).turns.length)
    (hNeil : (debate calls expression maxRounds).turns[p].speaker = "Neil")
    (hAgree : (debate calls expression maxRounds).turns[p].agreement_flag = some true) :
    (debate calls expression maxRounds).turns.length ≤ p + 2 ∧
    (∀ q (hq : q < (debate calls expression maxRounds).turns.length), p < q →
      (debate calls expression maxRounds).turns[q].speaker = "Terrence" ∧
      (debate calls expression maxRounds).turns[q].speaker ≠ "Neil") ∧
    (∀ q (hq : q < (debate calls expression maxRounds).turns.length), q ≠ p →
      ¬ ((debate calls expression maxRounds).turns[q].speaker = "Neil" ∧
         (debate calls expression maxRounds).turns[q].agreement_flag = some true)) := by
  have hg := debateRounds_goodTurns calls maxRounds maxRounds 0 0
    { status := DebateStatus.in_progress, expression := expression } (by simp)
  obtain ⟨h1, h2, h3⟩ := hg p hp ⟨hNeil, hAgree⟩
  refine ⟨h1, ?_, ?_⟩
  · intro q hq hpq
    have hsp := h2 q hq hpq
    refine ⟨hsp, ?_⟩
    intro hc
    exact absurd (hsp.symm.trans hc) (by decide)
  · intro q hq hqp
    exact h3 q hq hqp

/-- Witness for C8: the Critic agrees at turn index 1 and only the
finalization turn follows. -/
theorem C8_no_critic_after_agreement_witness :
    ((debate callsAgreeThenFinal "2+2" 2).turns.length ≤ 1 + 2 ∧
     (∀ q (hq : q < (debate callsAgreeThenFinal "2+2" 2).turns.length), 1 < q →
       (debate callsAgreeThenFinal "2+2" 2).turns[q].speaker = "Terrence" ∧
       (debate callsAgreeThenFinal "2+2" 2).turns[q].speaker ≠ "Neil") ∧
     (∀ q (hq : q < (debate callsAgreeThenFinal "2+2" 2).turns.length), q ≠ 1 →
       ¬ ((debate callsAgreeThenFinal "2+2" 2).turns[q].speaker = "Neil" ∧
          (debate callsAgreeThenFinal "2+2" 2).turns[q].agreement_flag = some true))) :=
  C8_no_critic_after_agreement callsAgreeThenFinal "2+2" 2 1
    (by decide) (by decide) (by decide)

/-- C9: for a jitter draw within `±(min_turn_seconds *
jitter_percentage)` — the range of `random.uniform(-r, r)` — the
jittered target minimum is `min_turn_seconds` perturbed by the draw and
clamped below at `0.1`; the recorded padding equals
`max 0 (jittered minimum - model latency)`, hence is `0` whenever the
model call alone met or exceeded the jittered minimum; and the recorded
total time equals model latency plus padding and is at least the
jittered minimum when the model call fell short of it. -/
theorem C9_pace_jitter_padding (min_turn_seconds jitter_percentage jitterDraw
    model_latency start_time : ℚ)
    (hdraw : |jitterDraw| ≤ min_turn_seconds * jitter_percentage) :
    (1 / 10 : ℚ) ≤ apply_jitter min_turn_seconds jitterDraw ∧
    min_turn_seconds * (1 - jitter_percentage) ≤ min_turn_seconds + jitterDraw ∧
    min_turn_seconds + jitterDraw ≤ min_turn_seconds * (1 + jitter_percentage) ∧
    (execute_turn_timing min_turn_seconds jitterDraw model_latency
        start_time).padding_time =
      max 0 (apply_jitter min_turn_seconds jitterDraw - model_latency) ∧
    (apply_jitter min_turn_seconds jitterDraw ≤ model_latency →
      (execute_turn_timing min_turn_seconds jitterDraw model_latency
          start_time).padding_time = 0) ∧
    (execute_turn_timing min_turn_seconds jitterDraw model_latency
        start_time).total_time =
      (execute_turn_timing min_turn_seconds jitterDraw model_latency
          start_time).model_latency +
        (execute_turn_timing min_turn_seconds jitterDraw model_latency
            start_time).padding_time ∧
    (model_latency < apply_jitter min_turn_seconds jitterDraw →
      apply_jitter min_turn_seconds jitterDraw ≤
        (execute_turn_timing min_turn_seconds jitterDraw model_latency
            start_time).total_time) := by
  obtain ⟨hlo, hhi⟩ := abs_le.mp hdraw
  refine ⟨le_max_left _ _, ?_, ?_, rfl, ?_, rfl, ?_⟩
  · rw [mul_one_sub]
    linarith
  · rw [mul_one_add]
    linarith
  · intro hle
    show max 0 (apply_jitter min_turn_seconds jitterDraw - model_latency) = 0
    rw [max_eq_left]
    linarith
  · intro hlt
    show apply_jitter min_turn_seconds jitterDraw ≤
      model_latency + max 0 (apply_jitter min_turn_seconds jitterDraw - model_latency)
    rw [max_eq_right (by linarith)]
    linarith

/-- Witness for C9 at `min_turn_seconds = 1`, `jitter_percentage = 1`,
draw `0`, latency `0`. -/
theorem C9_pace_jitter_padding_witness :
    (|(0 : ℚ)| ≤ 1 * 1) ∧
    ((1 / 10 : ℚ) ≤ apply_jitter 1 0 ∧
     (1 : ℚ) * (1 - 1) ≤ 1 + 0 ∧
     (1 : ℚ) + 0 ≤ 1 * (1 + 1) ∧
     (execute_turn_timing 1 0 0 0).padding_time = max 0 (apply_jitter 1 0 - 0) ∧
     (apply_jitter 1 0 ≤ 0 → (execute_turn_timing 1 0 0 0).padding_time = 0) ∧
     (execute_turn_timing 1 0 0 0).total_time =
       (execute_turn_timing 1 0 0 0).model_latency +
         (execute_turn_timing 1 0 0 0).padding_time ∧
     ((0 : ℚ) < apply_jitter 1 0 →
       apply_jitter 1 0 ≤ (execute_turn_timing 1 0 0 0).total_time)) :=
  ⟨by simp, C9_pace_jitter_padding 1 1 0 0 0 (by simp)⟩


end DebateCalc
